import Mathlib

/-!
Verification of the CSV parsing and snapshot-building pipeline in
scripts/build-report-data.ts (tokyo-ecosystem-data).

The TypeScript source is shallowly embedded: strings are modelled as
Lean strings, character scans as structural recursion over `List Char`,
JavaScript objects (string-keyed records with insertion order and
overwrite-on-assign) as association lists, and the per-source fetch as
an `Except`-valued oracle.
-/

namespace TokyoData

/-- Code points treated as whitespace by JavaScript's String.prototype.trim
(ECMAScript WhiteSpace ∪ LineTerminator: TAB, LF, VT, FF, CR, SP, NBSP,
Ogham space, the U+2000–U+200A range, LS, PS, NNBSP, MMSP, ideographic
space, ZWNBSP). -/
def jsWsCodes : List Nat :=
  [0x9, 0xA, 0xB, 0xC, 0xD, 0x20, 0xA0, 0x1680,
   0x2000, 0x2001, 0x2002, 0x2003, 0x2004, 0x2005, 0x2006, 0x2007,
   0x2008, 0x2009, 0x200A, 0x2028, 0x2029, 0x202F, 0x205F, 0x3000, 0xFEFF]

/-- Whether a character is JavaScript whitespace (for `trim`). -/
def jsWs (c : Char) : Bool := jsWsCodes.contains c.toNat

/-- JavaScript `trim` on a character list: drop leading and trailing
JS whitespace. -/
def trimL (l : List Char) : List Char :=
  ((l.dropWhile jsWs).reverse.dropWhile jsWs).reverse

/-- JavaScript `String.prototype.trim`. -/
def jsTrim (s : String) : String := String.mk (trimL s.data)

/-- The logical-line splitting loop of `parseCSV` (build-report-data.ts,
lines 26–51): a character scan with a quote-state flag. Arguments:
quote state `inQuotes`, the accumulated `currentLine`, remaining input.
Inside quotes a doubled quote contributes one literal quote and stays in
quoted mode; a single quote toggles the state and is kept in the line;
a newline outside quotes pushes the current line when its trim is
non-blank; a carriage return outside quotes is skipped; every other
character (including `\n` and `\r` inside quotes) is appended. At end of
input the final line is pushed when its trim is non-blank. -/
def lineScan : Bool → List Char → List Char → List (List Char)
  | _, cur, [] => if trimL cur = [] then [] else [cur]
  | true, cur, '"' :: '"' :: cs => lineScan true (cur ++ ['"']) cs
  | inQ, cur, '"' :: cs => lineScan (!inQ) (cur ++ ['"']) cs
  | false, cur, '\n' :: cs =>
      if trimL cur = [] then lineScan false [] cs
      else cur :: lineScan false [] cs
  | false, cur, '\r' :: cs => lineScan false cur cs
  | inQ, cur, c :: cs => lineScan inQ (cur ++ [c]) cs

/-- The retained logical lines of a CSV text (the `lines` array computed
by `parseCSV` before header/row processing). -/
def retainedLines (text : String) : List String :=
  (lineScan false [] text.data).map String.mk

/-- The field-splitting loop of `parseCSVRow` (build-report-data.ts,
lines 87–106). Inside quotes a doubled quote contributes one literal
quote; a single quote toggles the state and is dropped from the value;
a comma outside quotes ends the current field; everything else is
appended. The final field is always pushed. -/
def rowScan : Bool → List Char → List Char → List (List Char)
  | _, cur, [] => [cur]
  | true, cur, '"' :: '"' :: cs => rowScan true (cur ++ ['"']) cs
  | inQ, cur, '"' :: cs => rowScan (!inQ) cur cs
  | false, cur, ',' :: cs => cur :: rowScan false [] cs
  | inQ, cur, c :: cs => rowScan inQ (cur ++ [c]) cs

/-- `parseCSVRow`: split one logical line into raw field strings. -/
def parseCSVRow (row : String) : List String :=
  (rowScan false [] row.data).map String.mk

/-- A parsed row: a JavaScript object modelled as an insertion-ordered
association list with unique keys. -/
abbrev Row := List (String × String)

/-- JavaScript property assignment `obj[k] = v`: replace the value in
place when the key exists, otherwise append the new pair. -/
def jsSet : Row → String → String → Row
  | [], k, v => [(k, v)]
  | (k', v') :: rest, k, v =>
      if k' = k then (k, v) :: rest else (k', v') :: jsSet rest k v

/-- JavaScript property read `obj[k]`. -/
def jsGet : Row → String → Option String
  | [], _ => none
  | (k', v') :: rest, k => if k' = k then some v' else jsGet rest k

/-- The per-row field loop of `parseCSV` (build-report-data.ts,
lines 61–77): walk the header list, pairing each header positionally
with the value list (`values[j]?.trim() ?? ""`), and assign
`obj[header] = value` exactly when the trimmed header and the trimmed
value are both non-empty, recording in the flag whether any assignment
happened. -/
def buildRowAux : List String → List String → Row → Bool → Row × Bool
  | [], _, obj, has => (obj, has)
  | h :: hs, vs, obj, has =>
      let header := jsTrim h
      let value := jsTrim (vs.headD "")
      if header ≠ "" ∧ value ≠ "" then
        buildRowAux hs vs.tail (jsSet obj header value) true
      else
        buildRowAux hs vs.tail obj has

/-- `parseCSV`: split the text into retained logical lines, return `[]`
when fewer than two remain, otherwise tokenize the first line as headers
and build one object per remaining line, dropping rows with no data. -/
def parseCSV (text : String) : List Row :=
  match retainedLines text with
  | [] => []
  | [_] => []
  | headerLine :: dataLines =>
    let headers := parseCSVRow headerLine
    dataLines.filterMap (fun line =>
      let r := buildRowAux headers (parseCSVRow line) [] false
      if r.2 then some r.1 else none)

/-- One sheet configuration (key, display name, gid). -/
structure SheetConfig where
  key : String
  name : String
  gid : String
deriving DecidableEq, Repr

/-- The configured sheets (build-report-data.ts, lines 7–16). -/
def SHEET_CONFIGS : List SheetConfig :=
  [⟨"output", "output", "0"⟩,
   ⟨"ebitda_timeseries", "EBITDA Timeseries", "845629928"⟩,
   ⟨"revenue_timeseries", "Revenue Timeseries", "755104021"⟩,
   ⟨"employee_timeseries", "Employee timeseries", "12460386"⟩,
   ⟨"ev_timeseries", "EV timeseries", "790875073"⟩,
   ⟨"mafia", "Mafia", "1431246161"⟩,
   ⟨"founders", "founders", "275207722"⟩,
   ⟨"all_vc_rounds", "All VC Rounds", "62762089"⟩]

/-- `fetchSheetData` given the outcome of the underlying HTTP request:
a failed or non-ok response propagates as an error, a successful body is
parsed with `parseCSV`. -/
def fetchSheetDataResult (response : Except String String) :
    Except String (List Row) :=
  match response with
  | .ok text => .ok (parseCSV text)
  | .error e => .error e

/-- The per-source loop of `main` (build-report-data.ts, lines 150–157):
each configured source's key is bound to the parsed rows on success and
to the empty table when the fetch throws. -/
def buildSheetsData (fetch : SheetConfig → Except String String) :
    List (String × List Row) :=
  SHEET_CONFIGS.map (fun c =>
    (c.key, match fetchSheetDataResult (fetch c) with
            | .ok rows => rows
            | .error _ => []))

/-- The whole run of `main`: the sheets mapping together with the process
exit code. Per-source failures are absorbed inside `buildSheetsData`;
only a failure of the final serialize/write step (`persistOk = false`)
reaches the outer catch, which exits with code 1. -/
def mainRun (fetch : SheetConfig → Except String String)
    (persistOk : Bool) : List (String × List Row) × Nat :=
  (buildSheetsData fetch, if persistOk then 0 else 1)

/-- `Math.ceil((now.getMonth() + 1) / 3)` with `month = getMonth() + 1`:
the reporting quarter number (build-report-data.ts, line 161). -/
def quarterNumber (month : Nat) : Nat := ⌈(month : ℚ) / 3⌉₊

/-- The template string `${year}Q${quarterNumber}`
(build-report-data.ts, line 162). -/
def reportingQuarter (year month : Nat) : String :=
  Nat.repr year ++ "Q" ++ Nat.repr (quarterNumber month)

/-- Decidable check that a string matches `^\d\x7b4\x7dQ[1-4]$`. -/
def matchesQuarterPattern (s : String) : Bool :=
  match s.data with
  | [a, b, c, d, q, e] =>
      a.isDigit && b.isDigit && c.isDigit && d.isDigit && q = 'Q' &&
        (e = '1' || e = '2' || e = '3' || e = '4')
  | _ => false

/-- The value the code stores under a (non-empty) header name `name`:
the trimmed cell of the last (rightmost) column whose trimmed header
equals `name` and whose trimmed cell is non-empty, if any. -/
def lastQual : List String → List String → String → Option String
  | [], _, _ => none
  | h :: hs, vs, name =>
      match lastQual hs vs.tail name with
      | some v => some v
      | none =>
          let value := jsTrim (vs.headD "")
          if jsTrim h = name ∧ value ≠ "" then some value else none

/-! Step equations for `lineScan`, matching the branches of the character
loop in `parseCSV`. -/

theorem lineScan_nil (inQ : Bool) (cur : List Char) :
    lineScan inQ cur [] = if trimL cur = [] then [] else [cur] := by
  cases inQ <;> rfl

theorem lineScan_openq (cur cs : List Char) :
    lineScan false cur ('"' :: cs) = lineScan true (cur ++ ['"']) cs := by
  cases cs with
  | nil => rfl
  | cons x xs => rfl

theorem lineScan_escq (cur cs : List Char) :
    lineScan true cur ('"' :: '"' :: cs) = lineScan true (cur ++ ['"']) cs := rfl

theorem lineScan_closeq (cur cs : List Char) (h : cs.head? ≠ some '"') :
    lineScan true cur ('"' :: cs) = lineScan false (cur ++ ['"']) cs := by
  cases cs with
  | nil => rfl
  | cons x xs =>
    have hx : x ≠ '"' := by simpa using h
    rw [lineScan.eq_def]
    split
    all_goals try (rename_i heq hno; injection heq with h1 h2; subst h2; rfl)
    all_goals try (rename_i heq; injection heq with h1 h2; injection h2 with h3 h4; exact absurd h3 hx)
    all_goals try simp_all
    all_goals (rename_i hnc heq; exact absurd heq.1.symm hnc)

theorem lineScan_nl (cur cs : List Char) :
    lineScan false cur ('\n' :: cs) =
      if trimL cur = [] then lineScan false [] cs
      else cur :: lineScan false [] cs := rfl

theorem lineScan_cr (cur cs : List Char) :
    lineScan false cur ('\r' :: cs) = lineScan false cur cs := rfl

theorem lineScan_other (inQ : Bool) (cur : List Char) (c : Char) (cs : List Char)
    (h1 : c ≠ '"') (h2 : inQ = true ∨ (c ≠ '\n' ∧ c ≠ '\r')) :
    lineScan inQ cur (c :: cs) = lineScan inQ (cur ++ [c]) cs := by
  rw [lineScan.eq_def]
  split
  all_goals simp_all

/-! Step equations for `rowScan`, matching the branches of the character
loop in `parseCSVRow`. -/

theorem rowScan_nil (inQ : Bool) (cur : List Char) :
    rowScan inQ cur [] = [cur] := by
  cases inQ <;> rfl

theorem rowScan_openq (cur cs : List Char) :
    rowScan false cur ('"' :: cs) = rowScan true cur cs := by
  cases cs with
  | nil => rfl
  | cons x xs => rfl

theorem rowScan_escq (cur cs : List Char) :
    rowScan true cur ('"' :: '"' :: cs) = rowScan true (cur ++ ['"']) cs := rfl

theorem rowScan_closeq (cur cs : List Char) (h : cs.head? ≠ some '"') :
    rowScan true cur ('"' :: cs) = rowScan false cur cs := by
  cases cs with
  | nil => rfl
  | cons x xs =>
    have hx : x ≠ '"' := by simpa using h
    rw [rowScan.eq_def]
    split
    all_goals try (rename_i heq hno; injection heq with h1 h2; subst h2; rfl)
    all_goals try (rename_i heq; injection heq with h1 h2; injection h2 with h3 h4; exact absurd h3 hx)
    all_goals try simp_all
    all_goals (rename_i hnc heq; exact absurd heq.1.symm hnc)

theorem rowScan_comma (cur cs : List Char) :
    rowScan false cur (',' :: cs) = cur :: rowScan false [] cs := rfl

theorem rowScan_other (inQ : Bool) (cur : List Char) (c : Char) (cs : List Char)
    (h1 : c ≠ '"') (h2 : inQ = true ∨ c ≠ ',') :
    rowScan inQ cur (c :: cs) = rowScan inQ (cur ++ [c]) cs := by
  rw [rowScan.eq_def]
  split
  all_goals simp_all

/-! Bulk-consumption lemmas: a run of characters that triggers no state
change is appended to the current accumulator verbatim. -/

theorem lineScan_append_quoted (content : List Char)
    (h : ∀ c ∈ content, c ≠ '"') :
    ∀ cur rest, lineScan true cur (content ++ rest) =
      lineScan true (cur ++ content) rest := by
  induction content with
  | nil => simp
  | cons c cs ih =>
    intro cur rest
    rw [List.cons_append,
      lineScan_other true cur c _ (h c (by simp)) (Or.inl rfl),
      ih (fun x hx => h x (by simp [hx]))]
    simp

theorem lineScan_append_plain (content : List Char)
    (h : ∀ c ∈ content, c ≠ '"' ∧ c ≠ '\n' ∧ c ≠ '\r') :
    ∀ cur rest, lineScan false cur (content ++ rest) =
      lineScan false (cur ++ content) rest := by
  induction content with
  | nil => simp
  | cons c cs ih =>
    intro cur rest
    have hc := h c (by simp)
    rw [List.cons_append,
      lineScan_other false cur c _ hc.1 (Or.inr hc.2),
      ih (fun x hx => h x (by simp [hx]))]
    simp

theorem rowScan_append_quoted (content : List Char)
    (h : ∀ c ∈ content, c ≠ '"') :
    ∀ cur rest, rowScan true cur (content ++ rest) =
      rowScan true (cur ++ content) rest := by
  induction content with
  | nil => simp
  | cons c cs ih =>
    intro cur rest
    rw [List.cons_append,
      rowScan_other true cur c _ (h c (by simp)) (Or.inl rfl),
      ih (fun x hx => h x (by simp [hx]))]
    simp

theorem rowScan_append_plain (content : List Char)
    (h : ∀ c ∈ content, c ≠ '"' ∧ c ≠ ',') :
    ∀ cur rest, rowScan false cur (content ++ rest) =
      rowScan false (cur ++ content) rest := by
  induction content with
  | nil => simp
  | cons c cs ih =>
    intro cur rest
    have hc := h c (by simp)
    rw [List.cons_append,
      rowScan_other false cur c _ hc.1 (Or.inr hc.2),
      ih (fun x hx => h x (by simp [hx]))]
    simp

/-! Facts about `trimL` / `jsTrim`. -/

theorem head_dropWhile_not {α : Type} (p : α → Bool) :
    ∀ (l : List α) (a : α), (l.dropWhile p).head? = some a → p a = false := by
  intro l
  induction l with
  | nil => simp [List.dropWhile]
  | cons x xs ih =>
    intro a ha
    by_cases hp : p x = true
    · exact ih a (by rwa [List.dropWhile_cons_of_pos hp] at ha)
    · rw [List.dropWhile_cons_of_neg hp, List.head?_cons, Option.some.injEq] at ha
      subst ha
      exact eq_false_of_ne_true hp

theorem getLast_dropWhile_of_getLast {α : Type} (p : α → Bool) (l : List α)
    (a : α) (h : (l.dropWhile p).getLast? = some a) : l.getLast? = some a := by
  obtain ⟨t, ht⟩ := List.dropWhile_suffix (l := l) p
  rw [← ht, List.getLast?_append, h]
  rfl

theorem dropWhile_eq_self_of_head {α : Type} (p : α → Bool) (l : List α)
    (h : ∀ a, l.head? = some a → p a = false) : l.dropWhile p = l := by
  cases l with
  | nil => rfl
  | cons x xs =>
    exact List.dropWhile_cons_of_neg (by simp [h x rfl])

theorem trimL_head_not_ws (l : List Char) (a : Char)
    (h : (trimL l).head? = some a) : jsWs a = false := by
  rw [trimL, List.head?_reverse] at h
  have h2 := getLast_dropWhile_of_getLast jsWs _ a h
  rw [List.getLast?_reverse] at h2
  exact head_dropWhile_not jsWs _ a h2

theorem trimL_getLast_not_ws (l : List Char) (a : Char)
    (h : (trimL l).getLast? = some a) : jsWs a = false := by
  rw [trimL, List.getLast?_reverse] at h
  exact head_dropWhile_not jsWs _ a h

theorem trimL_idem (l : List Char) : trimL (trimL l) = trimL l := by
  have h1 : (trimL l).dropWhile jsWs = trimL l :=
    dropWhile_eq_self_of_head jsWs _ (trimL_head_not_ws l)
  have h2 : (trimL l).reverse.dropWhile jsWs = (trimL l).reverse := by
    refine dropWhile_eq_self_of_head jsWs _ (fun a ha => ?_)
    rw [List.head?_reverse] at ha
    exact trimL_getLast_not_ws l a ha
  rw [trimL, h1, h2, List.reverse_reverse]

theorem trimL_eq_nil_iff (l : List Char) :
    trimL l = [] ↔ ∀ c ∈ l, jsWs c = true := by
  constructor
  · intro h c hc
    rw [trimL, List.reverse_eq_nil_iff, List.dropWhile_eq_nil_iff] at h
    have hA : ∀ x ∈ l.dropWhile jsWs, jsWs x = true := by
      intro x hx
      exact h x (by simpa using hx)
    have hsplit : c ∈ l.takeWhile jsWs ++ l.dropWhile jsWs := by
      rw [List.takeWhile_append_dropWhile]
      exact hc
    rcases List.mem_append.mp hsplit with h1 | h2
    · exact List.mem_takeWhile_imp h1
    · exact hA _ h2
  · intro h
    have : l.dropWhile jsWs = [] := List.dropWhile_eq_nil_iff.mpr h
    simp [trimL, this]

theorem trimL_subset (l : List Char) : ∀ c ∈ trimL l, c ∈ l := by
  intro c hc
  rw [trimL, List.mem_reverse] at hc
  have h1 : c ∈ (l.dropWhile jsWs).reverse :=
    (List.dropWhile_suffix jsWs).subset hc
  rw [List.mem_reverse] at h1
  exact (List.dropWhile_suffix jsWs).subset h1

theorem jsTrim_idem (s : String) : jsTrim (jsTrim s) = jsTrim s := by
  simp [jsTrim, trimL_idem]

theorem jsTrim_eq_empty_iff (s : String) :
    jsTrim s = "" ↔ ∀ c ∈ s.data, jsWs c = true := by
  rw [jsTrim, show ("" : String) = String.mk [] from rfl]
  constructor
  · intro h
    exact (trimL_eq_nil_iff s.data).mp (by injection h)
  · intro h
    rw [(trimL_eq_nil_iff s.data).mpr h]

/-! Facts about the association-list model of JavaScript objects. -/

theorem jsGet_jsSet (obj : Row) (k v k2 : String) :
    jsGet (jsSet obj k v) k2 = if k = k2 then some v else jsGet obj k2 := by
  induction obj with
  | nil => simp [jsSet, jsGet]
  | cons p rest ih =>
    obtain ⟨a, b⟩ := p
    by_cases ha : a = k
    · subst ha
      simp only [jsSet, if_pos rfl, jsGet]
      by_cases hk : a = k2 <;> simp [hk]
    · simp only [jsSet, if_neg ha, jsGet]
      by_cases hk : a = k2
      · subst hk
        have : ¬ k = a := fun hh => ha hh.symm
        simp [this]
      · simp [hk, ih]

theorem mem_jsSet (obj : Row) (k v : String) (p : String × String)
    (h : p ∈ jsSet obj k v) : p = (k, v) ∨ p ∈ obj := by
  induction obj with
  | nil => simpa [jsSet] using h
  | cons q rest ih =>
    obtain ⟨a, b⟩ := q
    by_cases ha : a = k
    · subst ha
      rw [jsSet, if_pos rfl] at h
      rcases List.mem_cons.mp h with h1 | h1
      · exact Or.inl h1
      · exact Or.inr (List.mem_cons_of_mem _ h1)
    · rw [jsSet, if_neg ha] at h
      rcases List.mem_cons.mp h with h1 | h1
      · exact Or.inr (h1 ▸ List.mem_cons_self _ _)
      · rcases ih h1 with h2 | h2
        · exact Or.inl h2
        · exact Or.inr (List.mem_cons_of_mem _ h2)

theorem jsSet_ne_nil (obj : Row) (k v : String) : jsSet obj k v ≠ [] := by
  cases obj with
  | nil => simp [jsSet]
  | cons q rest =>
    obtain ⟨a, b⟩ := q
    by_cases ha : a = k <;> simp [jsSet, ha]

/-! Facts about the per-row field loop. -/

theorem buildRowAux_mem (hs : List String) :
    ∀ (vs : List String) (obj : Row) (has : Bool) (kv : String × String),
      kv ∈ (buildRowAux hs vs obj has).1 →
      kv ∈ obj ∨
        ((∃ hh ∈ hs, kv.1 = jsTrim hh) ∧
         (∃ raw, (raw ∈ vs ∨ raw = "") ∧ kv.2 = jsTrim raw) ∧
         kv.1 ≠ "" ∧ kv.2 ≠ "") := by
  induction hs with
  | nil =>
    intro vs obj has kv hkv
    exact Or.inl hkv
  | cons h hs ih =>
    intro vs obj has kv hkv
    by_cases hcond : jsTrim h ≠ "" ∧ jsTrim (vs.headD "") ≠ ""
    · rw [buildRowAux] at hkv
      simp only [if_pos hcond] at hkv
      rcases ih vs.tail _ true kv hkv with h1 | h1
      · rcases mem_jsSet _ _ _ _ h1 with h2 | h2
        · refine Or.inr ⟨⟨h, by simp, by rw [h2]⟩,
            ⟨vs.headD "", ?_, by rw [h2]⟩, ?_, ?_⟩
          · cases vs with
            | nil => exact Or.inr rfl
            | cons v vt => exact Or.inl (by simp)
          · rw [h2]; exact hcond.1
          · rw [h2]; exact hcond.2
        · exact Or.inl h2
      · obtain ⟨⟨hh, hh1, hh2⟩, ⟨raw, hraw, hraw2⟩, hk1, hk2⟩ := h1
        refine Or.inr ⟨⟨hh, by simp [hh1], hh2⟩, ⟨raw, ?_, hraw2⟩, hk1, hk2⟩
        rcases hraw with h3 | h3
        · exact Or.inl (List.mem_of_mem_tail h3)
        · exact Or.inr h3
    · rw [buildRowAux] at hkv
      simp only [if_neg hcond] at hkv
      rcases ih vs.tail _ has kv hkv with h1 | h1
      · exact Or.inl h1
      · obtain ⟨⟨hh, hh1, hh2⟩, ⟨raw, hraw, hraw2⟩, hk1, hk2⟩ := h1
        refine Or.inr ⟨⟨hh, by simp [hh1], hh2⟩, ⟨raw, ?_, hraw2⟩, hk1, hk2⟩
        rcases hraw with h3 | h3
        · exact Or.inl (List.mem_of_mem_tail h3)
        · exact Or.inr h3

theorem buildRowAux_flag (hs : List String) :
    ∀ (vs : List String) (obj : Row) (has : Bool),
      (obj = [] → has = false) →
      (buildRowAux hs vs obj has).2 = true →
      (buildRowAux hs vs obj has).1 ≠ [] := by
  induction hs with
  | nil =>
    intro vs obj has h0 h1 hnil
    rw [buildRowAux] at h1 hnil
    exact absurd h1 (by simp [h0 hnil])
  | cons h hs ih =>
    intro vs obj has h0 h1
    by_cases hcond : jsTrim h ≠ "" ∧ jsTrim (vs.headD "") ≠ ""
    · rw [buildRowAux] at h1 ⊢
      simp only [if_pos hcond] at h1 ⊢
      exact ih vs.tail _ true
        (fun hh => absurd hh (jsSet_ne_nil obj _ _)) h1
    · rw [buildRowAux] at h1 ⊢
      simp only [if_neg hcond] at h1 ⊢
      exact ih vs.tail obj has h0 h1

theorem jsGet_buildRowAux (hs : List String) :
    ∀ (vs : List String) (obj : Row) (has : Bool) (name : String),
      name ≠ "" →
      jsGet (buildRowAux hs vs obj has).1 name =
        (lastQual hs vs name).or (jsGet obj name) := by
  induction hs with
  | nil =>
    intro vs obj has name _
    rw [buildRowAux, lastQual]
    rfl
  | cons h hs ih =>
    intro vs obj has name hname
    by_cases hcond : jsTrim h ≠ "" ∧ jsTrim (vs.headD "") ≠ ""
    · rw [buildRowAux]
      simp only [if_pos hcond]
      rw [ih vs.tail _ true name hname, lastQual]
      cases hlq : lastQual hs vs.tail name with
      | some v2 => rfl
      | none =>
        simp only [jsGet_jsSet, Option.none_or]
        by_cases hk : jsTrim h = name
        · have h2 : ¬ jsTrim (vs.head?.getD "") = "" := by
            simpa using hcond.2
          simp [hk, h2]
        · simp [hk]
    · rw [buildRowAux]
      simp only [if_neg hcond]
      rw [ih vs.tail obj has name hname, lastQual]
      cases hlq : lastQual hs vs.tail name with
      | some v2 => rfl
      | none =>
        have hcond2 : ¬ (jsTrim h = name ∧ ¬ jsTrim (vs.head?.getD "") = "") := by
          intro hc
          refine hcond ⟨fun he => hname (he ▸ hc.1).symm, ?_⟩
          simpa using hc.2
        simp [hcond2]

/-! Provenance of characters through the scanners. -/

theorem rowScan_subset_aux :
    ∀ (n : ℕ) (l : List Char), l.length ≤ n →
      ∀ (inQ : Bool) (cur field : List Char), field ∈ rowScan inQ cur l →
        ∀ c ∈ field, c ∈ cur ∨ c ∈ l := by
  intro n
  induction n with
  | zero =>
    intro l hl inQ cur field hf c hc
    rw [List.length_eq_zero.mp (Nat.le_zero.mp hl)] at hf
    rw [rowScan_nil] at hf
    simp only [List.mem_singleton] at hf
    exact Or.inl (hf ▸ hc)
  | succ n ih =>
    intro l hl inQ cur field hf c hc
    cases l with
    | nil =>
      rw [rowScan_nil] at hf
      simp only [List.mem_singleton] at hf
      exact Or.inl (hf ▸ hc)
    | cons x xs =>
      simp only [List.length_cons, Nat.succ_le_succ_iff] at hl
      by_cases hx : x = '"'
      · subst hx
        cases inQ with
        | false =>
          rw [rowScan_openq] at hf
          rcases ih xs hl true cur field hf c hc with h1 | h1
          · exact Or.inl h1
          · exact Or.inr (List.mem_cons_of_mem _ h1)
        | true =>
          cases hxs : xs with
          | nil =>
            rw [hxs] at hf
            rcases ih [] (by simp) false cur field (by simpa using hf) c hc
              with h1 | h1
            · exact Or.inl h1
            · simp at h1
          | cons y ys =>
            by_cases hy : y = '"'
            · subst hy hxs
              rw [rowScan_escq] at hf
              rcases ih ys (by simp at hl; omega) true (cur ++ ['"']) field hf c hc
                with h1 | h1
              · rcases List.mem_append.mp h1 with h2 | h2
                · exact Or.inl h2
                · simp only [List.mem_singleton] at h2
                  exact Or.inr (h2 ▸ List.mem_cons_self _ _)
              · exact Or.inr (by simp [h1])
            · subst hxs
              rw [rowScan_closeq cur _ (by simp [hy])] at hf
              rcases ih (y :: ys) (by simpa using hl) false cur field hf c hc
                with h1 | h1
              · exact Or.inl h1
              · exact Or.inr (List.mem_cons_of_mem _ h1)
      · by_cases hcm : inQ = false ∧ x = ','
        · obtain ⟨hq, hx2⟩ := hcm
          subst hq hx2
          rw [rowScan_comma] at hf
          rcases List.mem_cons.mp hf with h1 | h1
          · exact Or.inl (h1 ▸ hc)
          · rcases ih xs hl false [] field h1 c hc with h2 | h2
            · simp at h2
            · exact Or.inr (List.mem_cons_of_mem _ h2)
        · have hor : inQ = true ∨ x ≠ ',' := by
            cases inQ with
            | true => exact Or.inl rfl
            | false => exact Or.inr (fun he => hcm ⟨rfl, he⟩)
          rw [rowScan_other inQ cur x xs hx hor] at hf
          rcases ih xs hl inQ (cur ++ [x]) field hf c hc with h1 | h1
          · rcases List.mem_append.mp h1 with h2 | h2
            · exact Or.inl h2
            · simp only [List.mem_singleton] at h2
              exact Or.inr (h2 ▸ List.mem_cons_self _ _)
          · exact Or.inr (List.mem_cons_of_mem _ h1)

theorem rowScan_subset (l : List Char) (inQ : Bool) (cur field : List Char)
    (hf : field ∈ rowScan inQ cur l) : ∀ c ∈ field, c ∈ cur ∨ c ∈ l :=
  rowScan_subset_aux l.length l le_rfl inQ cur field hf

theorem lineScan_no_cr (l : List Char) :
    ∀ cur, '"' ∉ l → '\r' ∉ cur →
      ∀ line ∈ lineScan false cur l, '\r' ∉ line := by
  induction l with
  | nil =>
    intro cur _ hcur line hline
    rw [lineScan_nil] at hline
    split at hline
    · simp at hline
    · simp only [List.mem_singleton] at hline
      exact hline ▸ hcur
  | cons x xs ih =>
    intro cur hq hcur line hline
    have hx : x ≠ '"' := fun he => hq (he ▸ List.mem_cons_self _ _)
    have hq2 : '"' ∉ xs := fun hm => hq (List.mem_cons_of_mem _ hm)
    by_cases hn : x = '\n'
    · subst hn
      rw [lineScan_nl] at hline
      split at hline
      · exact ih [] hq2 (by simp) line hline
      · rcases List.mem_cons.mp hline with h1 | h1
        · exact h1 ▸ hcur
        · exact ih [] hq2 (by simp) line h1
    · by_cases hr : x = '\r'
      · subst hr
        rw [lineScan_cr] at hline
        exact ih cur hq2 hcur line hline
      · rw [lineScan_other false cur x xs hx (Or.inr ⟨hn, hr⟩)] at hline
        have hcur2 : '\r' ∉ cur ++ [x] := by
          intro hm
          rcases List.mem_append.mp hm with h1 | h1
          · exact hcur h1
          · simp only [List.mem_singleton] at h1
            exact hr h1.symm
        exact ih (cur ++ [x]) hq2 hcur2 line hline

/-- Unfold one row of `parseCSV`: every emitted row comes from some data
line via the field loop, starting from the empty object. -/
theorem parseCSV_mem (text : String) (row : Row) (hrow : row ∈ parseCSV text) :
    ∃ headerLine dataLines, retainedLines text = headerLine :: dataLines ∧
      ∃ line ∈ dataLines,
        buildRowAux (parseCSVRow headerLine) (parseCSVRow line) [] false =
          (row, true) := by
  rw [parseCSV] at hrow
  cases hl : retainedLines text with
  | nil => rw [hl] at hrow; simp at hrow
  | cons h0 rest =>
    cases hrest : rest with
    | nil => rw [hl, hrest] at hrow; simp at hrow
    | cons d1 drest =>
      rw [hl, hrest] at hrow
      simp only [List.mem_filterMap] at hrow
      obtain ⟨line, hline, hsome⟩ := hrow
      refine ⟨h0, d1 :: drest, rfl, line, hline, ?_⟩
      by_cases h2 : (buildRowAux (parseCSVRow h0) (parseCSVRow line) [] false).2 = true
      · simp only [if_pos h2, Option.some.injEq] at hsome
        exact Prod.ext hsome (by rw [h2])
      · simp [if_neg h2] at hsome

/-- C1: the claim asserts that a doubled quote inside a quoted cell
survives as one literal quote through the full `parseCSV` pipeline, so
the cell `"a""b"` should store the value `a"b`. The code collapses the
doubled quote once during logical-line assembly (keeping the outer
quotes) and then re-tokenizes the line, so the remaining single quote is
consumed as a mode toggle: `parseCSV "h\n\"a\"\"b\""` stores `ab`, not
`a"b`. The row tokenizer alone does satisfy the property, which shows
the bug lies in the double unescaping of the composed pipeline. -/
theorem c1_doubled_quote_lost :
    parseCSV "h\n\"a\"\"b\"" = [[("h", "ab")]] ∧
      parseCSVRow "\"a\"\"b\"" = ["a\"b"] := by
  constructor <;> decide

/-- C2 counterexample: the claim asserts no field value ever contains a
carriage return. The scanner only skips `\r` when outside quotes; inside
a quoted region it falls through to the append branch, so the cell
`"a\rb"` stores a value containing `\r`. -/
theorem c2_cr_counterexample :
    ∃ row ∈ parseCSV "h\n\"a\rb\"", ∃ kv ∈ row, '\r' ∈ kv.2.data := by
  refine ⟨[("h", "a\rb")], by decide, ("h", "a\rb"), by decide, by decide⟩

/-- C2 amended: carriage returns outside quoted regions are discarded —
in particular, for input containing no double quote at all, no stored
field value contains `\r` — while a `\r` inside a quoted region is
preserved as field content. -/
theorem c2_cr_amended :
    (∀ text : String, '"' ∉ text.data →
      ∀ row ∈ parseCSV text, ∀ kv ∈ row, '\r' ∉ kv.2.data) ∧
      parseCSV "h\n\"a\rb\"" = [[("h", "a\rb")]] := by
  constructor
  · intro text hq row hrow kv hkv
    obtain ⟨h0, dls, hl, line, hline, hbuild⟩ := parseCSV_mem text row hrow
    have hkv2 : kv ∈ (buildRowAux (parseCSVRow h0) (parseCSVRow line) [] false).1 := by
      rw [hbuild]; exact hkv
    rcases buildRowAux_mem _ _ _ _ _ hkv2 with h1 | h1
    · simp at h1
    · obtain ⟨_, ⟨raw, hraw, hraw2⟩, _, _⟩ := h1
      intro hcr
      rw [hraw2, jsTrim] at hcr
      have hcr2 : '\r' ∈ raw.data := trimL_subset _ _ hcr
      rcases hraw with h3 | h3
      · rw [parseCSVRow] at h3
        simp only [List.mem_map] at h3
        obtain ⟨field, hfield, hfe⟩ := h3
        rw [← hfe] at hcr2
        rcases rowScan_subset _ _ _ _ hfield '\r' hcr2 with h4 | h4
        · simp at h4
        · have hlm : line ∈ retainedLines text := by
            rw [hl]; exact List.mem_cons_of_mem _ hline
          rw [retainedLines] at hlm
          simp only [List.mem_map] at hlm
          obtain ⟨lc, hlc, hlce⟩ := hlm
          have : '\r' ∉ lc :=
            lineScan_no_cr text.data [] hq (by simp) lc hlc
          rw [← hlce] at h4
          exact this h4
      · rw [h3] at hcr2
        simp at hcr2
  · decide

/-- C6: every row emitted by `parseCSV` is non-empty, and every pair in
it maps a non-empty trimmed header name to a non-empty trimmed value
(values and keys are fixed points of JavaScript `trim`). A row whose
mapping would be empty is never emitted — emitted rows are exactly those
whose field loop performed at least one assignment. -/
theorem c6_row_invariant (text : String) :
    ∀ row ∈ parseCSV text, row ≠ [] ∧
      ∀ kv ∈ row, kv.1 ≠ "" ∧ kv.2 ≠ "" ∧
        jsTrim kv.1 = kv.1 ∧ jsTrim kv.2 = kv.2 := by
  intro row hrow
  obtain ⟨h0, dls, hl, line, hline, hbuild⟩ := parseCSV_mem text row hrow
  constructor
  · have hne := buildRowAux_flag (parseCSVRow h0) (parseCSVRow line) [] false
      (fun _ => rfl) (by rw [hbuild])
    rw [hbuild] at hne
    exact hne
  · intro kv hkv
    have hkv2 : kv ∈ (buildRowAux (parseCSVRow h0) (parseCSVRow line) [] false).1 := by
      rw [hbuild]
      exact hkv
    rcases buildRowAux_mem _ _ _ _ _ hkv2 with h1 | h1
    · simp at h1
    · obtain ⟨⟨hh, _, hh2⟩, ⟨raw, _, hraw2⟩, hk1, hk2⟩ := h1
      exact ⟨hk1, hk2, by rw [hh2, jsTrim_idem], by rw [hraw2, jsTrim_idem]⟩

/-- C6 witness at a concrete input with padded cells. -/
theorem c6_row_invariant_witness :
    ([("h", "a")] : Row) ≠ [] ∧
      (("h", "a").1 ≠ "" ∧ ("h", "a").2 ≠ "" ∧
        jsTrim ("h", "a").1 = ("h", "a").1 ∧ jsTrim ("h", "a").2 = ("h", "a").2) :=
  ⟨(c6_row_invariant " h \n a " [("h", "a")] (by decide)).1,
   (c6_row_invariant " h \n a " [("h", "a")] (by decide)).2 ("h", "a") (by decide)⟩

/-- C2 amended witness: a quote-free two-line input stores a value
without `\r`. -/
theorem c2_cr_amended_witness : '\r' ∉ ("x" : String).data :=
  c2_cr_amended.1 "a,b\r\nx,y" (by decide) [("a", "x"), ("b", "y")] (by decide)
    ("a", "x") (by decide)

theorem lineScan_all_ws (l : List Char) :
    ∀ cur, (∀ c ∈ l, jsWs c = true) → (∀ c ∈ cur, jsWs c = true) →
      lineScan false cur l = [] := by
  induction l with
  | nil =>
    intro cur _ hcur
    rw [lineScan_nil, if_pos ((trimL_eq_nil_iff cur).mpr hcur)]
  | cons x xs ih =>
    intro cur hl hcur
    have hxw : jsWs x = true := hl x (List.mem_cons_self _ _)
    have hxs : ∀ c ∈ xs, jsWs c = true := fun c hc => hl c (List.mem_cons_of_mem _ hc)
    have hx : x ≠ '"' := by
      intro he
      rw [he] at hxw
      exact absurd hxw (by decide)
    by_cases hn : x = '\n'
    · subst hn
      rw [lineScan_nl, if_pos ((trimL_eq_nil_iff cur).mpr hcur)]
      exact ih [] hxs (by simp)
    · by_cases hr : x = '\r'
      · subst hr
        rw [lineScan_cr]
        exact ih cur hxs hcur
      · rw [lineScan_other false cur x xs hx (Or.inr ⟨hn, hr⟩)]
        refine ih (cur ++ [x]) hxs (fun c hc => ?_)
        rcases List.mem_append.mp hc with h1 | h1
        · exact hcur c h1
        · simp only [List.mem_singleton] at h1
          exact h1 ▸ hxw

/-- C7: when the input yields fewer than two retained logical lines,
`parseCSV` returns the empty table (and, being a total function, raises
no error); in particular an input consisting solely of JavaScript
whitespace — including the empty string — retains no line at all and
yields the empty table. -/
theorem c7_degenerate_inputs :
    (∀ text : String, (retainedLines text).length < 2 → parseCSV text = []) ∧
      (∀ text : String, (∀ c ∈ text.data, jsWs c = true) → parseCSV text = []) := by
  have hfew : ∀ text : String, (retainedLines text).length < 2 → parseCSV text = [] := by
    intro text hlen
    rw [parseCSV]
    cases hl : retainedLines text with
    | nil => rfl
    | cons h0 rest =>
      cases hrest : rest with
      | nil => rfl
      | cons d1 drest =>
        rw [hl, hrest] at hlen
        simp at hlen
        omega

  refine ⟨hfew, fun text hws => ?_⟩
  have : retainedLines text = [] := by
    rw [retainedLines, lineScan_all_ws text.data [] hws (by simp)]
    rfl
  exact hfew text (by rw [this]; decide)

/-- C7 witness: a header-only input (one retained line) and a
whitespace-only input. -/
theorem c7_degenerate_inputs_witness :
    parseCSV "h1,h2" = [] ∧ parseCSV " \t \n  " = [] :=
  ⟨c7_degenerate_inputs.1 "h1,h2" (by decide),
   c7_degenerate_inputs.2 " \t \n  " (by decide)⟩

/-- C8: a comma inside a quoted region is literal content, not a
separator — for any quote-free fragments `u`, `v`, the line
`"u,v"` tokenizes to the single field `u,v`. -/
theorem c8_quoted_comma (u v : String)
    (hu : '"' ∉ u.data) (hv : '"' ∉ v.data) :
    parseCSVRow ("\"" ++ u ++ "," ++ v ++ "\"") = [u ++ "," ++ v] := by
  have hdata : ("\"" ++ u ++ "," ++ v ++ "\"").data =
      '"' :: (u.data ++ [','] ++ v.data ++ ['"'])  := by
    simp [String.data_append]
  rw [parseCSVRow, hdata, rowScan_openq]
  have hcontent : ∀ c ∈ u.data ++ [','] ++ v.data, c ≠ '"' := by
    intro c hc
    rcases List.mem_append.mp hc with h1 | h1
    · rcases List.mem_append.mp h1 with h2 | h2
      · exact fun he => hu (he ▸ h2)
      · simp only [List.mem_singleton] at h2
        subst h2
        decide
    · exact fun he => hv (he ▸ h1)
  rw [rowScan_append_quoted _ hcontent [] ['"'],
    rowScan_closeq _ _ (by simp), rowScan_nil]
  simp only [List.nil_append, List.map_cons, List.map_nil]
  congr 1

/-- C8 witness at the spec's own example. -/
theorem c8_quoted_comma_witness : parseCSVRow "\"a,b\"" = ["a,b"] :=
  c8_quoted_comma "a" "b" (by decide) (by decide)

theorem rowScan_ne_nil_aux :
    ∀ (n : ℕ) (l : List Char), l.length ≤ n →
      ∀ (inQ : Bool) (cur : List Char), rowScan inQ cur l ≠ [] := by
  intro n
  induction n with
  | zero =>
    intro l hl inQ cur
    rw [List.length_eq_zero.mp (Nat.le_zero.mp hl), rowScan_nil]
    simp
  | succ n ih =>
    intro l hl inQ cur
    cases l with
    | nil => rw [rowScan_nil]; simp
    | cons x xs =>
      simp only [List.length_cons, Nat.succ_le_succ_iff] at hl
      by_cases hx : x = '"'
      · subst hx
        cases inQ with
        | false => rw [rowScan_openq]; exact ih xs hl true cur
        | true =>
          cases hxs : xs with
          | nil => simp [rowScan_closeq cur [] (by simp), rowScan_nil]
          | cons y ys =>
            by_cases hy : y = '"'
            · subst hy hxs
              rw [rowScan_escq]
              exact ih ys (by simp at hl; omega) true (cur ++ ['"'])
            · subst hxs
              rw [rowScan_closeq cur _ (by simp [hy])]
              exact ih (y :: ys) (by simpa using hl) false cur
      · by_cases hcm : inQ = false ∧ x = ','
        · obtain ⟨hq, hx2⟩ := hcm
          subst hq hx2
          rw [rowScan_comma]
          simp
        · have hor : inQ = true ∨ x ≠ ',' := by
            cases inQ with
            | true => exact Or.inl rfl
            | false => exact Or.inr (fun he => hcm ⟨rfl, he⟩)
          rw [rowScan_other inQ cur x xs hx hor]
          exact ih xs hl inQ (cur ++ [x])

/-- C9: the row tokenizer is total — it always emits at least the final
field, whatever the quote state at end of line — and an unbalanced
opening quote degrades gracefully: everything after it (commas included)
is literal content of the final field. -/
theorem c9_total_unbalanced :
    (∀ s : String, parseCSVRow s ≠ []) ∧
      (∀ u : String, '"' ∉ u.data → parseCSVRow ("\"" ++ u) = [u]) := by
  constructor
  · intro s hnil
    rw [parseCSVRow] at hnil
    exact rowScan_ne_nil_aux s.data.length s.data le_rfl false []
      (List.map_eq_nil_iff.mp hnil)
  · intro u hu
    have hdata : ("\"" ++ u).data = '"' :: u.data := by
      simp [String.data_append]
    rw [parseCSVRow, hdata, rowScan_openq]
    have hcontent : ∀ c ∈ u.data, c ≠ '"' := fun c hc he => hu (he ▸ hc)
    have hnil : u.data = u.data ++ [] := by simp
    rw [hnil, rowScan_append_quoted _ hcontent [] [], rowScan_nil]
    simp only [List.nil_append, List.map_cons, List.map_nil]

/-- C9 witness: a plain line tokenizes to something, and an unbalanced
quote keeps the rest — commas included — literal. -/
theorem c9_total_unbalanced_witness :
    parseCSVRow "x" ≠ [] ∧ parseCSVRow ("\"" ++ "ab,c") = ["ab,c"] :=
  ⟨c9_total_unbalanced.1 "x", c9_total_unbalanced.2 "ab,c" (by decide)⟩

/-- C10: with duplicate trimmed header names, the value stored under a
(non-empty) name is the trimmed cell of the last (rightmost) column
whose trimmed header equals that name and whose trimmed cell is
non-empty; columns with empty cells never overwrite. `lastQual` is the
rightmost-qualifying-column reading of the claim, proved equal to what
the code's field loop stores. -/
theorem c10_duplicate_headers (hs vs : List String) (name : String)
    (hname : name ≠ "") :
    jsGet (buildRowAux hs vs [] false).1 name = lastQual hs vs name := by
  rw [jsGet_buildRowAux hs vs [] false name hname]
  cases lastQual hs vs name <;> rfl

/-- C10 witness: duplicated header `h` with cells `a` and `b` stores `b`;
with the second cell blank it keeps `a`. -/
theorem c10_duplicate_headers_witness :
    jsGet (buildRowAux ["h", "h"] ["a", "b"] [] false).1 "h" =
        lastQual ["h", "h"] ["a", "b"] "h" ∧
      jsGet (buildRowAux ["h", "h"] ["a", " "] [] false).1 "h" =
        lastQual ["h", "h"] ["a", " "] "h" :=
  ⟨c10_duplicate_headers ["h", "h"] ["a", "b"] "h" (by decide),
   c10_duplicate_headers ["h", "h"] ["a", " "] "h" (by decide)⟩

/-! Fixed points of `jsTrim`. -/

theorem jsTrim_fix_iff (s : String) : jsTrim s = s ↔ trimL s.data = s.data := by
  constructor
  · intro h
    have h2 := congrArg String.data h
    exact h2
  · intro h
    rw [jsTrim, h]

theorem jsTrim_fix_head (s : String) (hf : jsTrim s = s) :
    ∀ a, s.data.head? = some a → jsWs a = false := by
  intro a ha
  refine trimL_head_not_ws s.data a ?_
  rwa [(jsTrim_fix_iff s).mp hf]

theorem jsTrim_fix_getLast (s : String) (hf : jsTrim s = s) :
    ∀ a, s.data.getLast? = some a → jsWs a = false := by
  intro a ha
  refine trimL_getLast_not_ws s.data a ?_
  rwa [(jsTrim_fix_iff s).mp hf]

theorem trimL_eq_self (l : List Char)
    (hhead : ∀ a, l.head? = some a → jsWs a = false)
    (hlast : ∀ a, l.getLast? = some a → jsWs a = false) : trimL l = l := by
  rw [trimL, dropWhile_eq_self_of_head jsWs l hhead,
    dropWhile_eq_self_of_head jsWs l.reverse
      (fun a ha => hlast a (by rwa [List.head?_reverse] at ha)),
    List.reverse_reverse]

theorem data_ne_nil_of_ne_empty (s : String) (h : s ≠ "") : s.data ≠ [] := by
  intro he
  exact h (String.ext he)

/-- A whole quote-free fragment wrapped in quotes tokenizes as one field. -/
theorem parseCSVRow_quoted (w : String) (hw : '"' ∉ w.data) :
    parseCSVRow ("\"" ++ w ++ "\"") = [w] := by
  have hdata : ("\"" ++ w ++ "\"").data = '"' :: (w.data ++ ['"']) := by
    simp [String.data_append]
  rw [parseCSVRow, hdata, rowScan_openq,
    rowScan_append_quoted _ (fun c hc he => hw (he ▸ hc)) [] ['"'],
    rowScan_closeq _ _ (by simp), rowScan_nil]
  simp only [List.nil_append, List.map_cons, List.map_nil]

/-- A line containing no quote, comma, or line terminator tokenizes as
itself. -/
theorem parseCSVRow_plain (s : String)
    (hs : ∀ c ∈ s.data, c ≠ '"' ∧ c ≠ ',') : parseCSVRow s = [s] := by
  rw [parseCSVRow]
  have hnil : s.data = s.data ++ [] := by simp
  rw [hnil, rowScan_append_plain _ hs [] [], rowScan_nil]
  simp only [List.nil_append, List.map_cons, List.map_nil]

/-- C3: a quoted field spanning an embedded newline parses as one cell
whose value contains the newline, and creates no extra row: for a plain
header `h` and quote-free, trim-fixed, non-empty fragments `l1`, `l2`,
the two-physical-line text parses as exactly one logical data row whose
single value is `l1 ++ "\n" ++ l2`. -/
theorem c3_embedded_newline (h l1 l2 : String)
    (hh : ∀ c ∈ h.data, c ≠ '"' ∧ c ≠ ',' ∧ c ≠ '\n' ∧ c ≠ '\r')
    (hhfix : jsTrim h = h) (hhne : h ≠ "")
    (hq1 : '"' ∉ l1.data) (hq2 : '"' ∉ l2.data)
    (ht1 : jsTrim l1 = l1) (ht2 : jsTrim l2 = l2)
    (hn1 : l1 ≠ "") (hn2 : l2 ≠ "") :
    parseCSV (h ++ "\n\"" ++ l1 ++ "\n" ++ l2 ++ "\"") =
      [[(h, l1 ++ "\n" ++ l2)]] := by
  have hhdata : h.data ≠ [] := data_ne_nil_of_ne_empty h hhne
  have hhtrim : trimL h.data = h.data := (jsTrim_fix_iff h).mp hhfix
  have hdata : (h ++ "\n\"" ++ l1 ++ "\n" ++ l2 ++ "\"").data =
      h.data ++ ('\n' :: '"' :: (l1.data ++ ('\n' :: (l2.data ++ ['"'])))) := by
    simp [String.data_append]
  have hbig : '"' :: l1.data ++ ['\n'] ++ l2.data ++ ['"'] =
      ('"' :: l1.data ++ ['\n'] ++ l2.data) ++ ['"'] := by
    simp [List.append_assoc]
  have hlines : retainedLines (h ++ "\n\"" ++ l1 ++ "\n" ++ l2 ++ "\"") =
      [h, "\"" ++ (l1 ++ "\n" ++ l2) ++ "\""] := by
    rw [retainedLines, hdata,
      lineScan_append_plain h.data (fun c hc => ⟨(hh c hc).1, (hh c hc).2.2⟩) [] _,
      List.nil_append, lineScan_nl, if_neg (by rw [hhtrim]; exact hhdata),
      lineScan_openq, List.nil_append,
      lineScan_append_quoted l1.data (fun c hc he => hq1 (he ▸ hc)) ['"'] _,
      lineScan_other true _ '\n' _ (by decide) (Or.inl rfl),
      lineScan_append_quoted l2.data (fun c hc he => hq2 (he ▸ hc)) _ ['"'],
      lineScan_closeq _ _ (by simp), lineScan_nil]
    rw [if_neg]
    · simp only [List.map_cons, List.map_nil]
      congr 2
    · intro hab
      have := (trimL_eq_nil_iff _).mp hab '"' (by simp)
      exact absurd this (by decide)
  have hqw : '"' ∉ (l1 ++ "\n" ++ l2).data := by
    simp only [String.data_append]
    intro hm
    rcases List.mem_append.mp hm with hm1 | hm1
    · rcases List.mem_append.mp hm1 with hm2 | hm2
      · exact hq1 hm2
      · simp only [show ("\n" : String).data = ['\n'] from rfl,
          List.mem_singleton] at hm2
        exact absurd hm2 (by decide)
    · exact hq2 hm1
  have hwfix : jsTrim (l1 ++ "\n" ++ l2) = l1 ++ "\n" ++ l2 := by
    refine (jsTrim_fix_iff _).mpr (trimL_eq_self _ ?_ ?_)
    · intro a ha
      cases hd : l1.data with
      | nil => exact absurd hd (data_ne_nil_of_ne_empty l1 hn1)
      | cons x xs =>
        have hx : (l1 ++ "\n" ++ l2).data.head? = some x := by
          simp [String.data_append, hd]
        rw [hx, Option.some.injEq] at ha
        exact ha ▸ jsTrim_fix_head l1 ht1 x (by rw [hd]; rfl)
    · intro a ha
      have hgl : (l1 ++ "\n" ++ l2).data.getLast? =
          l2.data.getLast?.or (l1.data ++ ['\n']).getLast? := by
        simp only [String.data_append]
        exact List.getLast?_append
      rw [hgl] at ha
      cases hl2 : l2.data.getLast? with
      | none =>
        have : l2.data = [] := by
          cases hdd : l2.data with
          | nil => rfl
          | cons y ys =>
            rw [hdd] at hl2
            simp [List.getLast?_concat, List.getLast?] at hl2
        exact absurd this (data_ne_nil_of_ne_empty l2 hn2)
      | some b =>
        rw [hl2] at ha
        simp only [Option.or_some, Option.some.injEq] at ha
        exact ha ▸ jsTrim_fix_getLast l2 ht2 b hl2
  have hcond : jsTrim h ≠ "" ∧
      jsTrim (([l1 ++ "\n" ++ l2]).headD "") ≠ "" := by
    constructor
    · rw [hhfix]; exact hhne
    · show jsTrim (l1 ++ "\n" ++ l2) ≠ ""
      rw [hwfix]
      intro he
      exact hn1 (by simpa using congrArg String.data he)
  have hrow : buildRowAux [h] [l1 ++ "\n" ++ l2] [] false =
      ([(h, l1 ++ "\n" ++ l2)], true) := by
    rw [buildRowAux]
    simp only [if_pos hcond]
    rw [buildRowAux]
    simp only [List.headD_cons, hhfix, hwfix]
    rfl
  rw [parseCSV, hlines]
  simp only [parseCSVRow_plain h (fun c hc => ⟨(hh c hc).1, (hh c hc).2.1⟩),
    parseCSVRow_quoted (l1 ++ "\n" ++ l2) hqw, List.filterMap_cons,
    List.filterMap_nil, hrow]
  rfl

/-- C3 witness at the spec's own example. -/
theorem c3_embedded_newline_witness :
    parseCSV ("h" ++ "\n\"" ++ "line1" ++ "\n" ++ "line2" ++ "\"") =
      [[("h", "line1" ++ "\n" ++ "line2")]] :=
  c3_embedded_newline "h" "line1" "line2" (by decide) (by decide) (by decide)
    (by decide) (by decide) (by decide) (by decide) (by decide) (by decide)

/-! The snapshot builder. -/

theorem lookup_map_key (cfgs : List SheetConfig)
    (f : SheetConfig → List Row) :
    ∀ c ∈ cfgs, (cfgs.map (fun x => x.key)).Nodup →
      (cfgs.map (fun x => (x.key, f x))).lookup c.key = some (f c) := by
  induction cfgs with
  | nil => intro c hc; simp at hc
  | cons x rest ih =>
    intro c hc hnd
    simp only [List.map_cons, List.nodup_cons] at hnd
    rcases List.mem_cons.mp hc with h1 | h1
    · subst h1
      simp [List.lookup]
    · have hne : (c.key == x.key) = false := by
        apply beq_false_of_ne
        intro he
        exact hnd.1 (he ▸ List.mem_map_of_mem (fun y => y.key) h1)
      simp only [List.map_cons, List.lookup, hne]
      exact ih c h1 hnd.2

/-- C4: if the fetch for one configured source fails, that source's key
is bound to the empty table, every configured source's key is still
bound to the result of its own fetch (parsed rows on success, empty
table on failure), and when the final write succeeds the run exits 0 —
the per-source failure is not fatal. -/
theorem c4_fetch_failure_isolated
    (fetch : SheetConfig → Except String String) (c : SheetConfig)
    (e : String) (hc : c ∈ SHEET_CONFIGS) (hf : fetch c = .error e) :
    (buildSheetsData fetch).lookup c.key = some [] ∧
      (∀ c2 ∈ SHEET_CONFIGS, (buildSheetsData fetch).lookup c2.key =
        some (match fetchSheetDataResult (fetch c2) with
              | .ok rows => rows
              | .error _ => [])) ∧
      (mainRun fetch true).2 = 0 := by
  have hnd : (SHEET_CONFIGS.map (fun x => x.key)).Nodup := by decide
  have hall : ∀ c2 ∈ SHEET_CONFIGS, (buildSheetsData fetch).lookup c2.key =
      some (match fetchSheetDataResult (fetch c2) with
            | .ok rows => rows
            | .error _ => []) := by
    intro c2 hc2
    exact lookup_map_key SHEET_CONFIGS _ c2 hc2 hnd
  refine ⟨?_, hall, rfl⟩
  rw [hall c hc, hf]
  rfl

/-- C4 witness: with a fetch oracle that succeeds for `output` and fails
for every other source, the failed key `mafia` maps to the empty table,
the successful key maps to its parsed rows, and the exit code is 0. -/
theorem c4_fetch_failure_isolated_witness :
    (buildSheetsData (fun cfg =>
        if cfg.key = "output" then .ok "h\nv" else .error "HTTP 500")).lookup
        "mafia" = some [] ∧
      (mainRun (fun cfg =>
        if cfg.key = "output" then .ok "h\nv" else .error "HTTP 500")
        true).2 = 0 := by
  have h := c4_fetch_failure_isolated
    (fun cfg => if cfg.key = "output" then .ok "h\nv" else .error "HTTP 500")
    ⟨"mafia", "Mafia", "1431246161"⟩ "HTTP 500" (by decide) rfl
  exact ⟨h.1, h.2.2⟩

/-! Decimal rendering facts used for the reporting-quarter pattern. -/

theorem digitChar_isDigit (r : ℕ) (hr : r < 10) :
    (Nat.digitChar r).isDigit = true := by
  interval_cases r <;> decide

theorem toDigitsCore_all_digit :
    ∀ (fuel n : ℕ) (ds : List Char), (∀ c ∈ ds, c.isDigit = true) →
      ∀ c ∈ Nat.toDigitsCore 10 fuel n ds, c.isDigit = true := by
  intro fuel
  induction fuel with
  | zero =>
    intro n ds hds c hc
    rw [Nat.toDigitsCore] at hc
    exact hds c hc
  | succ f ih =>
    intro n ds hds c hc
    rw [Nat.toDigitsCore] at hc
    by_cases h0 : n / 10 = 0
    · simp only [if_pos h0] at hc
      rcases List.mem_cons.mp hc with h1 | h1
      · exact h1 ▸ digitChar_isDigit _ (Nat.mod_lt n (by norm_num))
      · exact hds c h1
    · simp only [if_neg h0] at hc
      refine ih (n / 10) _ (fun c2 hc2 => ?_) c hc
      rcases List.mem_cons.mp hc2 with h1 | h1
      · exact h1 ▸ digitChar_isDigit _ (Nat.mod_lt n (by norm_num))
      · exact hds c2 h1

theorem toDigitsCore_len :
    ∀ (fuel n : ℕ) (ds : List Char), 0 < n → n < fuel →
      (Nat.toDigitsCore 10 fuel n ds).length =
        (Nat.digits 10 n).length + ds.length := by
  intro fuel
  induction fuel with
  | zero =>
    intro n ds hn hf
    omega
  | succ f ih =>
    intro n ds hn hf
    rw [Nat.toDigitsCore]
    rw [Nat.digits_def' (by norm_num : (1:ℕ) < 10) hn]
    by_cases h0 : n / 10 = 0
    · simp [if_pos h0, h0]
      omega
    · simp only [if_neg h0]
      have hdiv : n / 10 < n := Nat.div_lt_self hn (by norm_num)
      rw [ih (n / 10) _ (Nat.pos_of_ne_zero h0) (by omega)]
      simp only [List.length_cons]
      omega

theorem repr_four_digits (y : ℕ) (h1 : 1000 ≤ y) (h2 : y ≤ 9999) :
    ∃ a b c d : Char, (Nat.repr y).data = [a, b, c, d] ∧
      a.isDigit = true ∧ b.isDigit = true ∧ c.isDigit = true ∧
      d.isDigit = true := by
  have hrepr : (Nat.repr y).data = Nat.toDigitsCore 10 (y + 1) y [] := rfl
  have hlog : Nat.log 10 y = 3 :=
    Nat.log_eq_of_pow_le_of_lt_pow (by norm_num; omega) (by norm_num; omega)
  have hlen : (Nat.repr y).data.length = 4 := by
    rw [hrepr, toDigitsCore_len (y + 1) y [] (by omega) (by omega),
      Nat.digits_len 10 y (by norm_num) (by omega), hlog]
    rfl
  have hdig : ∀ c ∈ (Nat.repr y).data, c.isDigit = true := by
    rw [hrepr]
    exact toDigitsCore_all_digit (y + 1) y [] (by simp)
  rcases hl : (Nat.repr y).data with _ | ⟨a, _ | ⟨b, _ | ⟨c, _ | ⟨d, _ | _⟩⟩⟩⟩ <;>
    rw [hl] at hlen <;> simp at hlen
  refine ⟨a, b, c, d, rfl, ?_, ?_, ?_, ?_⟩ <;>
    [exact hdig a (by rw [hl]; simp); exact hdig b (by rw [hl]; simp);
      exact hdig c (by rw [hl]; simp); exact hdig d (by rw [hl]; simp)]

/-- C5: for every month 1–12 the reporting quarter number computed by
the code (`Math.ceil(month / 3)`) equals `(month + 2) / 3` in integer
arithmetic, lies in {1,2,3,4}, and for every four-digit year the
composite string `year ++ "Q" ++ quarter` matches `^\d\x7b4\x7dQ[1-4]$`. -/
theorem c5_reporting_quarter (month : ℕ) (h1 : 1 ≤ month) (h2 : month ≤ 12) :
    (quarterNumber month = (month + 2) / 3 ∧
      (quarterNumber month = 1 ∨ quarterNumber month = 2 ∨
        quarterNumber month = 3 ∨ quarterNumber month = 4)) ∧
      ∀ year, 1000 ≤ year → year ≤ 9999 →
        matchesQuarterPattern (reportingQuarter year month) = true := by
  have hq : quarterNumber month = (month + 2) / 3 := by
    interval_cases month <;>
      · rw [quarterNumber, Nat.ceil_eq_iff (by norm_num)]
        norm_num
  have hmem : quarterNumber month = 1 ∨ quarterNumber month = 2 ∨
      quarterNumber month = 3 ∨ quarterNumber month = 4 := by
    rw [hq]
    omega
  refine ⟨⟨hq, hmem⟩, fun year hy1 hy2 => ?_⟩
  obtain ⟨a, b, c, d, hdata, ha, hb, hc, hd⟩ := repr_four_digits year hy1 hy2
  have hqd : ∃ e : Char, (Nat.repr (quarterNumber month)).data = [e] ∧
      (e = '1' ∨ e = '2' ∨ e = '3' ∨ e = '4') := by
    rcases hmem with hm | hm | hm | hm <;> rw [hm] <;>
      [exact ⟨'1', rfl, Or.inl rfl⟩;
        exact ⟨'2', rfl, Or.inr (Or.inl rfl)⟩;
        exact ⟨'3', rfl, Or.inr (Or.inr (Or.inl rfl))⟩;
        exact ⟨'4', rfl, Or.inr (Or.inr (Or.inr rfl))⟩]
  obtain ⟨e, hedata, hev⟩ := hqd
  have hfull : (reportingQuarter year month).data = [a, b, c, d, 'Q', e] := by
    rw [reportingQuarter, String.data_append, String.data_append, hdata,
      hedata]
    rfl
  rw [matchesQuarterPattern, hfull]
  simp only [ha, hb, hc, hd]
  rcases hev with he | he | he | he <;> subst he <;> decide

/-- C5 witness at month 12 and year 2026. -/
theorem c5_reporting_quarter_witness :
    (quarterNumber 12 = (12 + 2) / 3 ∧
      (quarterNumber 12 = 1 ∨ quarterNumber 12 = 2 ∨
        quarterNumber 12 = 3 ∨ quarterNumber 12 = 4)) ∧
      matchesQuarterPattern (reportingQuarter 2026 12) = true :=
  ⟨(c5_reporting_quarter 12 (by decide) (by decide)).1,
   (c5_reporting_quarter 12 (by decide) (by decide)).2 2026 (by decide)
     (by decide)⟩

end TokyoData
